import Mathlib

/-!
Verification of the branch-naming, settings-reconciliation, branch-relevance
and branch-linking logic of the `vscode-gh-projects` extension.

Strings are modelled as `List Char`.  The functions below are shallow
embeddings of the TypeScript sources:

* `sanitizeForBranchName`, `generateBranchName` from `src/git-utils.ts`;
* the `BranchLinker` link-store operations from `src/branch-linker.ts`;
* the post-resolution merge step of `executeSyncSettings` from
  `src/settings-sync.ts`;
* `computeSettingsDiff`, `resolveConflicts` and `rankBranchesByRelevance`
  are imported by the extension from the external `@bretwardjames/ghp-core`
  package whose code is not part of this repository; they are modelled from
  the specification (see their doc comments).

JavaScript's `String.prototype.toLowerCase` is modelled per character by
`Char.toLower`, which performs the basic-latin (ASCII) mapping.
-/

namespace GhProjects

/-- Character class `[a-z0-9-]` of the sanitizer's keep-regex
(`src/git-utils.ts`, `replace(/[^a-z0-9-]/g, '-')`). -/
def isAllowed (c : Char) : Bool :=
  (97 ≤ c.toNat && c.toNat ≤ 122) || (48 ≤ c.toNat && c.toNat ≤ 57) || (c.toNat = 45)

/-- Step 2 of the sanitizer: replace every character outside `[a-z0-9-]`
with a hyphen. -/
def replaceDisallowed (c : Char) : Char :=
  if isAllowed c then c else '-'

/-- Step 3 of the sanitizer (replace of regex `[-]+` by `-`, global): collapse
every run of consecutive hyphens to a single hyphen. -/
def collapseHyphens : List Char → List Char
  | [] => []
  | [c] => [c]
  | c :: d :: rest =>
    if c = '-' ∧ d = '-' then collapseHyphens (d :: rest)
    else c :: collapseHyphens (d :: rest)

/-- Removal of a single leading hyphen, the `^-` alternative of the final
global replace of regex `^-|-$` by the empty string. -/
def dropLeadingHyphen : List Char → List Char
  | [] => []
  | c :: rest => if c = '-' then rest else c :: rest

/-- Removal of a single trailing hyphen, the `-$` alternative of the final
global replace of regex `^-|-$` by the empty string; also models the
single replace of regex `-$` in `generateBranchName`'s truncation. -/
def dropTrailingHyphen (l : List Char) : List Char :=
  match l.getLast? with
  | some '-' => l.dropLast
  | _ => l

/-- Embedding of `sanitizeForBranchName` (`src/git-utils.ts`): lowercase,
replace characters outside `[a-z0-9-]` with `-`, collapse hyphen runs,
strip one leading and one trailing hyphen. -/
def sanitizeForBranchName (text : List Char) : List Char :=
  dropTrailingHyphen (dropLeadingHyphen
    (collapseHyphens ((text.map Char.toLower).map replaceDisallowed)))

/-- Predicate for "no two consecutive hyphens". -/
def noConsecHyphens : List Char → Bool
  | [] => true
  | [_] => true
  | c :: d :: rest =>
    if c = '-' ∧ d = '-' then false else noConsecHyphens (d :: rest)

/-- Test whether `p` is a prefix of the second list. -/
def isPre : List Char → List Char → Bool
  | [], _ => true
  | _ :: _, [] => false
  | c :: cs, d :: ds => if c = d then isPre cs ds else false

/-- Replace the first occurrence of `pat` by `rep`; a subject without an
occurrence is returned unchanged. -/
def replaceFirst (pat rep : List Char) : List Char → List Char
  | [] => if isPre pat [] then rep ++ ([] : List Char).drop pat.length else []
  | c :: rest =>
    if isPre pat (c :: rest) then rep ++ (c :: rest).drop pat.length
    else c :: replaceFirst pat rep rest

/-- Occurrence of `pat` as a contiguous substring. -/
def occursIn (pat s : List Char) : Prop := ∃ p q, s = p ++ pat ++ q

/-- Input record of `generateBranchName`. -/
structure BranchVars where
  user : List Char
  number : Option Nat
  title : List Char
  repo : Option (List Char)

/-- Decimal digits of a natural number, as produced by JS `toString`. -/
def natToChars (n : Nat) : List Char := Nat.toDigits 10 n

/-- Substitution for the `number` placeholder:
`variables.number?.toString() || 'draft'`. -/
def numberToChars : Option Nat → List Char
  | some n => natToChars n
  | none => "draft".data

/-- Everything before the first slash paired with everything after it. -/
def findSlash : List Char → Option (List Char × List Char)
  | [] => none
  | c :: rest =>
    if c = '/' then some ([], rest)
    else
      match findSlash rest with
      | some (a, b) => some (c :: a, b)
      | none => none

/-- Second component of the JS `split` on `'/'`: the run after the first
slash up to the next slash, empty when there is no slash. -/
def secondSlashComponent (l : List Char) : List Char :=
  match findSlash l with
  | none => []
  | some (_, rest) => rest.takeWhile (fun c => c ≠ '/')

/-- Substitution for the `repo` placeholder: a null or empty (falsy) repo
substitutes the empty string, otherwise the sanitized part after the
slash of `"owner/name"`. -/
def repoToChars : Option (List Char) → List Char
  | none => []
  | some r => if r = [] then [] else sanitizeForBranchName (secondSlashComponent r)

/-- Placeholder substitution of `generateBranchName`: the four JS
first-occurrence `replace` calls, in source order (`user`, `number`,
`title`, `repo`). -/
def substitutedName (pat : List Char) (v : BranchVars) : List Char :=
  replaceFirst "{repo}".data (repoToChars v.repo)
    (replaceFirst "{title}".data (sanitizeForBranchName v.title)
      (replaceFirst "{number}".data (numberToChars v.number)
        (replaceFirst "{user}".data v.user pat)))

/-- Digit run at the front of a list, paired with the remainder. -/
def takeDigits : List Char → List Char × List Char
  | [] => ([], [])
  | c :: rest =>
    if c.isDigit then
      let dr := takeDigits rest
      (c :: dr.1, dr.2)
    else ([], c :: rest)

/-- Match of the anchored regex "one or more non-slash characters, a slash,
one or more digits, a hyphen" at the front of the branch name, returning
the matched substring. -/
def matchBranchPrefix (l : List Char) : Option (List Char) :=
  match findSlash l with
  | none => none
  | some (a, b) =>
    if a = [] then none
    else if (takeDigits b).1 = [] then none
    else if (takeDigits b).2.head? = some '-' then
      some (a ++ '/' :: ((takeDigits b).1 ++ ['-']))
    else none

/-- Embedding of `generateBranchName`: substitute the placeholders, then
truncate when the result exceeds `maxLength`, preserving a matched
`user/number-` style front when present. -/
def generateBranchName (pat : List Char) (v : BranchVars) (maxLength : Nat) : List Char :=
  if (substitutedName pat v).length > maxLength then
    match matchBranchPrefix (substitutedName pat v) with
    | some pfx =>
      pfx ++ dropTrailingHyphen
        ((sanitizeForBranchName v.title).take (maxLength - pfx.length))
    | none => (substitutedName pat v).take maxLength
  else substitutedName pat v

/-- Shape of a successful match of the regex "one or more non-slash
characters, a slash, one or more digits, a hyphen" at the front of `l`. -/
def regexSplit (a d rest l : List Char) : Prop :=
  a ≠ [] ∧ (∀ c ∈ a, c ≠ '/') ∧ d ≠ [] ∧ (∀ c ∈ d, c.isDigit = true) ∧
    l = a ++ '/' :: (d ++ '-' :: rest)

/-- Substring containment test. -/
def containsSub (pat : List Char) : List Char → Bool
  | [] => isPre pat []
  | c :: rest => isPre pat (c :: rest) || containsSub pat rest

/-- Canonical syncable setting keys: the four keys read by
`getCliSyncableSettings` in `src/settings-sync.ts`. -/
inductive SyncKey
  | mainBranch
  | branchPattern
  | startWorkingStatus
  | doneStatus
deriving DecidableEq

/-- Modelled from the spec: the canonical syncable key set
`SYNCABLE_KEYS` of the core package. -/
def SYNCABLE_KEYS : List SyncKey :=
  [.mainBranch, .branchPattern, .startWorkingStatus, .doneStatus]

/-- VSCode-side setting keys (the `ghProjects.*` configuration names). -/
inductive VSKey
  | vMainBranch
  | vBranchPattern
  | vStartWorkingStatus
  | vDoneStatus
deriving DecidableEq

/-- Modelled from the spec: `CLI_TO_VSCODE_MAP` of the core package, the
CLI-to-VSCode key translation; the spec states it is a fixed, total
bijection over the syncable key set. -/
def CLI_TO_VSCODE_MAP : SyncKey → VSKey
  | .mainBranch => .vMainBranch
  | .branchPattern => .vBranchPattern
  | .startWorkingStatus => .vStartWorkingStatus
  | .doneStatus => .vDoneStatus

/-- Modelled from the spec: the static key-to-display-name table
`SETTING_DISPLAY_NAMES` of the core package. -/
def SETTING_DISPLAY_NAMES : SyncKey → String
  | .mainBranch => "Main Branch"
  | .branchPattern => "Branch Pattern"
  | .startWorkingStatus => "Start Working Status"
  | .doneStatus => "Done Status"

/-- Settings source: each syncable key optionally holds a string value. -/
def SyncableSettings := SyncKey → Option String

/-- Conflict entry of the diff. -/
structure SettingConflict where
  key : SyncKey
  cliValue : String
  vscodeValue : String
  displayName : String
deriving DecidableEq

/-- Diff of two settings sources. -/
structure SettingsDiff where
  matching : List (SyncKey × String)
  conflicts : List SettingConflict
  cliOnly : List (SyncKey × String)
  vscodeOnly : List (SyncKey × String)

/-- Modelled from the spec: `computeSettingsDiff` of the core package.
For each key of the canonical set: both absent - omitted entirely; both
present and equal - `matching`; both present and different - `conflicts`
(with both values and the display name); present on exactly one side -
the corresponding one-sided list. -/
def computeSettingsDiff (cliS vsS : SyncableSettings) : SettingsDiff where
  matching := SYNCABLE_KEYS.filterMap fun k =>
    match cliS k, vsS k with
    | some va, some vb => if va = vb then some (k, va) else none
    | _, _ => none
  conflicts := SYNCABLE_KEYS.filterMap fun k =>
    match cliS k, vsS k with
    | some va, some vb =>
      if va = vb then none else some ⟨k, va, vb, SETTING_DISPLAY_NAMES k⟩
    | _, _ => none
  cliOnly := SYNCABLE_KEYS.filterMap fun k =>
    match cliS k, vsS k with
    | some va, none => some (k, va)
    | _, _ => none
  vscodeOnly := SYNCABLE_KEYS.filterMap fun k =>
    match cliS k, vsS k with
    | none, some vb => some (k, vb)
    | _, _ => none

/-- Modelled from the spec: a conflict resolution choice. -/
inductive Resolution
  | useCli
  | useVSCode
  | useCustom (value : String)
  | skipKey

/-- Choice map passed to `resolveConflicts`; a key without an entry
defaults to skip. -/
def ConflictChoices := SyncKey → Option Resolution

/-- Output patches of the merge: one per side. -/
structure MergePatches where
  cli : SyncKey → Option String
  vscode : VSKey → Option String

/-- Write one key of the CLI patch. -/
def updateCli (p : MergePatches) (k : SyncKey) (v : String) : MergePatches :=
  { p with cli := fun k2 => if k2 = k then some v else p.cli k2 }

/-- Write one key of the VSCode patch. -/
def updateVs (p : MergePatches) (k : VSKey) (v : String) : MergePatches :=
  { p with vscode := fun k2 => if k2 = k then some v else p.vscode k2 }

/-- One step of the conflict-resolution fold. -/
def conflictStep (choices : ConflictChoices) (acc : MergePatches)
    (c : SettingConflict) : MergePatches :=
  match (choices c.key).getD Resolution.skipKey with
  | .useCli => updateVs acc (CLI_TO_VSCODE_MAP c.key) c.cliValue
  | .useVSCode => updateCli acc c.key c.vscodeValue
  | .useCustom v => updateVs (updateCli acc c.key v) (CLI_TO_VSCODE_MAP c.key) v
  | .skipKey => acc

/-- Modelled from the spec: `resolveConflicts` of the core package.  Only
the conflict list is consulted: `useCli` writes the CLI value to the
VSCode patch, `useVSCode` writes the VSCode value to the CLI patch,
`useCustom` writes the custom value to both patches, skip (or a missing
choice) writes nothing.  The `dryRun` flag never changes the computed
patches. -/
def resolveConflicts (d : SettingsDiff) (choices : ConflictChoices)
    (_dryRun : Bool) : MergePatches :=
  d.conflicts.foldl (conflictStep choices) ⟨fun _ => none, fun _ => none⟩

/-- Truthiness of an optional string value (JS `if (value)`). -/
def truthy : Option String → Bool
  | none => false
  | some v => if v = "" then false else true

/-- One step of the CLI-only propagation loop of `executeSyncSettings`:
`resolved.vscode[CLI_TO_VSCODE_MAP[key]] = value` guarded by JS
truthiness of the stored value. -/
def cliOnlyStep (cliS : SyncableSettings) (acc : MergePatches)
    (k : SyncKey) : MergePatches :=
  match cliS k with
  | some v => if v = "" then acc else updateVs acc (CLI_TO_VSCODE_MAP k) v
  | none => acc

/-- One step of the VSCode-only propagation loop of `executeSyncSettings`:
`resolved.cli[key] = value` guarded by JS truthiness. -/
def vscodeOnlyStep (vsS : SyncableSettings) (acc : MergePatches)
    (k : SyncKey) : MergePatches :=
  match vsS k with
  | some v => if v = "" then acc else updateCli acc k v
  | none => acc

/-- The post-resolution merge step of `executeSyncSettings`
(`src/settings-sync.ts`): approved CLI-only keys are copied into the
VSCode patch, then approved VSCode-only keys into the CLI patch. -/
def addApprovedSyncs (resolved : MergePatches) (cliS vsS : SyncableSettings)
    (syncCliOnly syncVscodeOnly : List SyncKey) : MergePatches :=
  syncVscodeOnly.foldl (vscodeOnlyStep vsS)
    (syncCliOnly.foldl (cliOnlyStep cliS) resolved)

/-- The whole patch computation of the sync flow: conflict resolution
followed by the caller-approved one-sided propagations. -/
def syncFlowPatches (cliS vsS : SyncableSettings) (choices : ConflictChoices)
    (syncCliOnly syncVscodeOnly : List SyncKey) : MergePatches :=
  addApprovedSyncs (resolveConflicts (computeSettingsDiff cliS vsS) choices false)
    cliS vsS syncCliOnly syncVscodeOnly

/-- Sample CLI settings source for the C7 witness. -/
def sampleCli : SyncableSettings := fun k =>
  match k with
  | .mainBranch => some "main"
  | _ => none

/-- Sample VSCode settings source for the C7 and C6 witnesses. -/
def sampleVs : SyncableSettings := fun k =>
  match k with
  | .branchPattern => some "{user}-{number}"
  | _ => none

/-- Empty choice map for the witnesses. -/
def sampleChoices : ConflictChoices := fun _ => none

/-- Whitespace class of the tokenizer's regex. -/
def isWsChar (c : Char) : Bool :=
  c.toNat = 32 || c.toNat = 9 || c.toNat = 10 || c.toNat = 13 || c.toNat = 12 || c.toNat = 11

/-- Character class `[a-z0-9]` kept by the tokenizer. -/
def isTokenChar (c : Char) : Bool :=
  (97 ≤ c.toNat && c.toNat ≤ 122) || (48 ≤ c.toNat && c.toNat ≤ 57)

/-- Split on whitespace runs, accumulating the current word reversed. -/
def splitWsAux : List Char → List Char → List (List Char)
  | cur, [] => if cur = [] then [] else [cur.reverse]
  | cur, c :: rest =>
    if isWsChar c then
      if cur = [] then splitWsAux [] rest
      else cur.reverse :: splitWsAux [] rest
    else splitWsAux (c :: cur) rest

/-- Modelled from the spec: tokenization of the issue title - lowercase,
strip characters outside lowercase letters, digits and whitespace, split
on whitespace, discard tokens of length at most 2. -/
def tokenizeTitle (title : List Char) : List (List Char) :=
  (splitWsAux []
      ((title.map Char.toLower).filter (fun c => isTokenChar c || isWsChar c))).filter
    (fun t => t.length > 2)

/-- Modelled from the spec: the relevance score of one branch name -
100 when the branch name contains the issue number's decimal string,
plus 10 per title token contained in the lowercased branch name. -/
def scoreBranch (branch : List Char) (issueNumber : Option Nat)
    (titleTokens : List (List Char)) : Nat :=
  (match issueNumber with
   | some n => if containsSub (natToChars n) branch then 100 else 0
   | none => 0) +
  10 * (titleTokens.countP fun t => containsSub t (branch.map Char.toLower))

/-- Stable insertion for the descending sort: an element moves past
exactly the strictly higher scores, so equal scores keep their input
order. -/
def insertByScore (x : List Char × Nat) :
    List (List Char × Nat) → List (List Char × Nat)
  | [] => [x]
  | y :: ys => if x.2 ≥ y.2 then x :: y :: ys else y :: insertByScore x ys

/-- Stable descending insertion sort on scores. -/
def sortByScoreDesc : List (List Char × Nat) → List (List Char × Nat)
  | [] => []
  | x :: xs => insertByScore x (sortByScoreDesc xs)

/-- Modelled from the spec: `rankBranchesByRelevance` - score every branch
and stable-sort descending by score. -/
def rankBranchesByRelevance (branches : List (List Char))
    (issueNumber : Option Nat) (issueTitle : List Char) : List (List Char) :=
  (sortByScoreDesc (branches.map
      (fun b => (b, scoreBranch b issueNumber (tokenizeTitle issueTitle))))).map
    Prod.fst

/-- One stored branch-issue link. -/
structure BranchIssueLink where
  branchName : String
  issueNumber : Nat
  issueTitle : String
  projectItemId : String
  linkedAt : String
deriving DecidableEq

/-- The store operations of `BranchLinker`; the timestamp written by
`linkBranch` is an operation parameter. -/
inductive LinkOp
  | link (branchName : String) (issueNumber : Nat) (issueTitle : String)
      (projectItemId : String) (linkedAt : String)
  | unlinkByIssue (projectItemId : String)
  | unlinkByBranch (branchName : String)

/-- Effect of one operation on the stored link list: `linkBranch` first
filters out any link with the same project item or the same branch, then
appends the new link; the unlink operations filter by their key. -/
def applyLinkOp (links : List BranchIssueLink) : LinkOp → List BranchIssueLink
  | .link bn num title pid stamp =>
    (links.filter fun l => ¬(l.projectItemId = pid) ∧ ¬(l.branchName = bn)) ++
      [⟨bn, num, title, pid, stamp⟩]
  | .unlinkByIssue pid => links.filter fun l => ¬(l.projectItemId = pid)
  | .unlinkByBranch bn => links.filter fun l => ¬(l.branchName = bn)

/-- Run a sequence of operations from the empty store. -/
def runLinkOps (ops : List LinkOp) : List BranchIssueLink :=
  ops.foldl applyLinkOp []

/-- Pairwise distinctness of both identifying fields. -/
def LinksUnique (links : List BranchIssueLink) : Prop :=
  links.Pairwise fun l1 l2 =>
    l1.branchName ≠ l2.branchName ∧ l1.projectItemId ≠ l2.projectItemId

theorem isAllowed_replaceDisallowed (c : Char) : isAllowed (replaceDisallowed c) = true := by
  unfold replaceDisallowed
  by_cases h : isAllowed c = true
  · simp [h]
  · simp [h]; decide

theorem toLower_eq_self_of_isAllowed {c : Char} (h : isAllowed c = true) :
    Char.toLower c = c := by
  unfold Char.toLower
  have hn : ¬ (c.toNat ≥ 65 ∧ c.toNat ≤ 90) := by
    unfold isAllowed at h
    simp only [Bool.or_eq_true, Bool.and_eq_true, decide_eq_true_eq] at h
    omega
  simp [hn]

theorem replaceDisallowed_eq_self_of_isAllowed {c : Char} (h : isAllowed c = true) :
    replaceDisallowed c = c := by
  simp [replaceDisallowed, h]

theorem mem_collapseHyphens : ∀ (l : List Char), ∀ c ∈ collapseHyphens l, c ∈ l
  | [], c, h => by simp [collapseHyphens] at h
  | [a], c, h => by simpa [collapseHyphens] using h
  | a :: b :: rest, c, h => by
    unfold collapseHyphens at h
    by_cases hab : a = '-' ∧ b = '-'
    · rw [if_pos hab] at h
      exact List.mem_cons_of_mem _ (mem_collapseHyphens (b :: rest) c h)
    · rw [if_neg hab] at h
      rcases List.mem_cons.mp h with h | h
      · exact h ▸ List.mem_cons_self _ _
      · exact List.mem_cons_of_mem _ (mem_collapseHyphens (b :: rest) c h)

theorem collapseHyphens_cons_of_ne {d : Char} (hd : d ≠ '-') (rest : List Char) :
    ∃ t, collapseHyphens (d :: rest) = d :: t := by
  cases rest with
  | nil => exact ⟨[], rfl⟩
  | cons e r =>
    unfold collapseHyphens
    rw [if_neg (by simp [hd])]
    exact ⟨_, rfl⟩

theorem noConsecHyphens_cons₂ {c d : Char} {rest : List Char} :
    noConsecHyphens (c :: d :: rest) = true ↔
      ¬(c = '-' ∧ d = '-') ∧ noConsecHyphens (d :: rest) = true := by
  show (if c = '-' ∧ d = '-' then false else noConsecHyphens (d :: rest)) = true ↔ _
  by_cases h : c = '-' ∧ d = '-' <;> simp [h]

theorem noConsecHyphens_collapseHyphens : ∀ l : List Char,
    noConsecHyphens (collapseHyphens l) = true
  | [] => rfl
  | [a] => rfl
  | a :: b :: rest => by
    unfold collapseHyphens
    by_cases hab : a = '-' ∧ b = '-'
    · rw [if_pos hab]
      exact noConsecHyphens_collapseHyphens (b :: rest)
    · rw [if_neg hab]
      have ih := noConsecHyphens_collapseHyphens (b :: rest)
      by_cases ha : a = '-'
      · have hb : b ≠ '-' := fun h => hab ⟨ha, h⟩
        obtain ⟨t, ht⟩ := collapseHyphens_cons_of_ne hb rest
        rw [ht] at ih ⊢
        exact noConsecHyphens_cons₂.mpr ⟨fun h => hb h.2, ih⟩
      · cases hc : collapseHyphens (b :: rest) with
        | nil => rfl
        | cons x t =>
          rw [hc] at ih
          exact noConsecHyphens_cons₂.mpr ⟨fun h => ha h.1, ih⟩

theorem noConsecHyphens_tail {c : Char} {l : List Char}
    (h : noConsecHyphens (c :: l) = true) : noConsecHyphens l = true := by
  cases l with
  | nil => rfl
  | cons d r => exact (noConsecHyphens_cons₂.mp h).2

theorem noConsecHyphens_dropLast : ∀ {l : List Char},
    noConsecHyphens l = true → noConsecHyphens l.dropLast = true := by
  intro l
  induction l with
  | nil => intro _; rfl
  | cons c rest ih =>
    intro h
    cases rest with
    | nil => rfl
    | cons d r =>
      cases r with
      | nil => rfl
      | cons e r2 =>
        obtain ⟨h1, h2⟩ := noConsecHyphens_cons₂.mp h
        have ih2 := ih h2
        show noConsecHyphens (c :: (d :: e :: r2).dropLast) = true
        have hdl : (d :: e :: r2).dropLast = d :: (e :: r2).dropLast := rfl
        rw [hdl]
        rw [hdl] at ih2
        cases hdl2 : (e :: r2).dropLast with
        | nil => exact noConsecHyphens_cons₂.mpr ⟨h1, rfl⟩
        | cons x t =>
          rw [hdl2] at ih2
          exact noConsecHyphens_cons₂.mpr ⟨h1, ih2⟩

theorem dropLeadingHyphen_cons (a : Char) (rest : List Char) :
    dropLeadingHyphen (a :: rest) = if a = '-' then rest else a :: rest := rfl

theorem mem_dropLeadingHyphen {c : Char} {l : List Char}
    (h : c ∈ dropLeadingHyphen l) : c ∈ l := by
  cases l with
  | nil => exact h
  | cons a rest =>
    rw [dropLeadingHyphen_cons] at h
    by_cases ha : a = '-'
    · rw [if_pos ha] at h
      exact List.mem_cons_of_mem _ h
    · rwa [if_neg ha] at h

theorem mem_dropTrailingHyphen {c : Char} {l : List Char}
    (h : c ∈ dropTrailingHyphen l) : c ∈ l := by
  unfold dropTrailingHyphen at h
  split at h
  · exact List.dropLast_subset _ h
  · exact h

theorem noConsecHyphens_dropLeadingHyphen {l : List Char}
    (h : noConsecHyphens l = true) : noConsecHyphens (dropLeadingHyphen l) = true := by
  cases l with
  | nil => exact h
  | cons a rest =>
    rw [dropLeadingHyphen_cons]
    by_cases ha : a = '-'
    · rw [if_pos ha]
      exact noConsecHyphens_tail h
    · rwa [if_neg ha]

theorem noConsecHyphens_dropTrailingHyphen {l : List Char}
    (h : noConsecHyphens l = true) : noConsecHyphens (dropTrailingHyphen l) = true := by
  unfold dropTrailingHyphen
  split
  · exact noConsecHyphens_dropLast h
  · exact h

theorem head_dropLeadingHyphen {l : List Char}
    (h : noConsecHyphens l = true) : (dropLeadingHyphen l).head? ≠ some '-' := by
  cases l with
  | nil => simp [dropLeadingHyphen]
  | cons c rest =>
    rw [dropLeadingHyphen_cons]
    by_cases hc : c = '-'
    · rw [if_pos hc]
      subst hc
      cases rest with
      | nil => simp
      | cons d r =>
        have h1 := (noConsecHyphens_cons₂.mp h).1
        have hd : d ≠ '-' := fun hd => h1 ⟨rfl, hd⟩
        simpa using hd
    · rw [if_neg hc]
      simpa using hc

theorem getLast_dropLast_ne_hyphen : ∀ {l : List Char},
    noConsecHyphens l = true → l.getLast? = some '-' →
    l.dropLast.getLast? ≠ some '-'
  | [], _, hl => by simp at hl
  | [c], _, _ => by simp
  | c :: d :: rest, h, hl => by
    obtain ⟨h1, h2⟩ := noConsecHyphens_cons₂.mp h
    cases rest with
    | nil =>
      have hd : d = '-' := by simpa using hl
      have hc : c ≠ '-' := fun hc => h1 ⟨hc, hd⟩
      simpa using hc
    | cons e r =>
      have hdl : (c :: d :: e :: r).dropLast = c :: (d :: e :: r).dropLast := rfl
      rw [hdl]
      have hl2 : (d :: e :: r).getLast? = some '-' := by
        rwa [List.getLast?_cons_cons] at hl
      have ih := getLast_dropLast_ne_hyphen h2 hl2
      have hne : (d :: e :: r).dropLast ≠ [] := by simp
      intro hcon
      apply ih
      rw [← hcon]
      cases hx : (d :: e :: r).dropLast with
      | nil => exact absurd hx hne
      | cons y t => simp [List.getLast?_cons_cons]

theorem getLast_dropTrailingHyphen {l : List Char}
    (h : noConsecHyphens l = true) :
    (dropTrailingHyphen l).getLast? ≠ some '-' := by
  unfold dropTrailingHyphen
  split
  · next hl => exact getLast_dropLast_ne_hyphen h hl
  · next hl => exact fun hc => hl hc

theorem head_dropLast_ne {l : List Char} (h : l.head? ≠ some '-') :
    l.dropLast.head? ≠ some '-' := by
  cases l with
  | nil => simp
  | cons c rest =>
    cases rest with
    | nil => simp
    | cons d r =>
      have : (c :: d :: r).dropLast = c :: (d :: r).dropLast := rfl
      rw [this]
      simpa using h

theorem head_dropTrailingHyphen {l : List Char} (h : l.head? ≠ some '-') :
    (dropTrailingHyphen l).head? ≠ some '-' := by
  unfold dropTrailingHyphen
  split
  · exact head_dropLast_ne h
  · exact h

/-- Bundle of structural facts about the sanitizer's output: all characters
lie in `[a-z0-9-]`, hyphens are never doubled, and neither end is a
hyphen. -/
theorem sanitize_spec (text : List Char) :
    (∀ c ∈ sanitizeForBranchName text, isAllowed c = true) ∧
    noConsecHyphens (sanitizeForBranchName text) = true ∧
    (sanitizeForBranchName text).head? ≠ some '-' ∧
    (sanitizeForBranchName text).getLast? ≠ some '-' := by
  unfold sanitizeForBranchName
  set L := collapseHyphens ((text.map Char.toLower).map replaceDisallowed) with hL
  have hmem : ∀ c ∈ L, isAllowed c = true := by
    intro c hc
    have := mem_collapseHyphens _ c hc
    obtain ⟨d, _, hd⟩ := List.mem_map.mp this
    rw [← hd]
    exact isAllowed_replaceDisallowed d
  have hnc : noConsecHyphens L = true := noConsecHyphens_collapseHyphens _
  have hncL : noConsecHyphens (dropLeadingHyphen L) = true :=
    noConsecHyphens_dropLeadingHyphen hnc
  refine ⟨?_, ?_, ?_, ?_⟩
  · intro c hc
    exact hmem c (mem_dropLeadingHyphen (mem_dropTrailingHyphen hc))
  · exact noConsecHyphens_dropTrailingHyphen hncL
  · exact head_dropTrailingHyphen (head_dropLeadingHyphen hnc)
  · exact getLast_dropTrailingHyphen hncL

theorem map_toLower_eq_self {l : List Char} (h : ∀ c ∈ l, isAllowed c = true) :
    l.map Char.toLower = l := by
  have : l.map Char.toLower = l.map id :=
    List.map_congr_left fun a ha => toLower_eq_self_of_isAllowed (h a ha)
  rw [this, List.map_id]

theorem map_replaceDisallowed_eq_self {l : List Char}
    (h : ∀ c ∈ l, isAllowed c = true) : l.map replaceDisallowed = l := by
  have : l.map replaceDisallowed = l.map id :=
    List.map_congr_left fun a ha => replaceDisallowed_eq_self_of_isAllowed (h a ha)
  rw [this, List.map_id]

theorem collapseHyphens_eq_self : ∀ {l : List Char},
    noConsecHyphens l = true → collapseHyphens l = l
  | [], _ => rfl
  | [c], _ => rfl
  | c :: d :: rest, h => by
    obtain ⟨h1, h2⟩ := noConsecHyphens_cons₂.mp h
    unfold collapseHyphens
    rw [if_neg h1, collapseHyphens_eq_self h2]

theorem dropLeadingHyphen_eq_self {l : List Char} (h : l.head? ≠ some '-') :
    dropLeadingHyphen l = l := by
  cases l with
  | nil => rfl
  | cons c rest =>
    rw [dropLeadingHyphen_cons, if_neg]
    intro hc
    exact h (by simp [hc])

theorem dropTrailingHyphen_eq_self {l : List Char} (h : l.getLast? ≠ some '-') :
    dropTrailingHyphen l = l := by
  unfold dropTrailingHyphen
  split
  · next hl => exact absurd hl h
  · rfl

theorem sanitize_eq_self {l : List Char}
    (hall : ∀ c ∈ l, isAllowed c = true)
    (hnc : noConsecHyphens l = true)
    (hhead : l.head? ≠ some '-')
    (hlast : l.getLast? ≠ some '-') :
    sanitizeForBranchName l = l := by
  unfold sanitizeForBranchName
  rw [map_toLower_eq_self hall, map_replaceDisallowed_eq_self hall,
    collapseHyphens_eq_self hnc, dropLeadingHyphen_eq_self hhead,
    dropTrailingHyphen_eq_self hlast]

/-- Claim C3: `sanitizeForBranchName` is idempotent. -/
theorem claim_C3_sanitize_idempotent (s : List Char) :
    sanitizeForBranchName (sanitizeForBranchName s) = sanitizeForBranchName s := by
  obtain ⟨hall, hnc, hhead, hlast⟩ := sanitize_spec s
  exact sanitize_eq_self hall hnc hhead hlast

/-- Claim C4: the output of `sanitizeForBranchName` contains no uppercase
letters, no whitespace, no leading hyphen, no trailing hyphen and no two
consecutive hyphens; every character is a lowercase letter, a digit or a
hyphen. -/
theorem claim_C4_sanitize_output (s : List Char) :
    (∀ c ∈ sanitizeForBranchName s,
        ((97 ≤ c.toNat ∧ c.toNat ≤ 122) ∨ (48 ≤ c.toNat ∧ c.toNat ≤ 57) ∨ c = '-') ∧
        ¬(65 ≤ c.toNat ∧ c.toNat ≤ 90) ∧ c.isWhitespace = false) ∧
    (sanitizeForBranchName s).head? ≠ some '-' ∧
    (sanitizeForBranchName s).getLast? ≠ some '-' ∧
    noConsecHyphens (sanitizeForBranchName s) = true := by
  obtain ⟨hall, hnc, hhead, hlast⟩ := sanitize_spec s
  refine ⟨?_, hhead, hlast, hnc⟩
  intro c hc
  have h := hall c hc
  unfold isAllowed at h
  simp only [Bool.or_eq_true, Bool.and_eq_true, decide_eq_true_eq] at h
  have hranges : (97 ≤ c.toNat ∧ c.toNat ≤ 122) ∨ (48 ≤ c.toNat ∧ c.toNat ≤ 57) ∨
      c.toNat = 45 := by tauto
  have hhyph : c.toNat = 45 → c = '-' := by
    intro h45
    have hc := Char.ofNat_toNat c
    rw [h45] at hc
    rw [← hc]
  have hn : (97 ≤ c.toNat ∧ c.toNat ≤ 122) ∨ (48 ≤ c.toNat ∧ c.toNat ≤ 57) ∨
      c.toNat = 45 := hranges
  refine ⟨?_, ?_, ?_⟩
  · rcases hranges with h | h | h
    · exact Or.inl h
    · exact Or.inr (Or.inl h)
    · exact Or.inr (Or.inr (hhyph h))
  · omega
  · unfold Char.isWhitespace
    have h32 : c ≠ ' ' := by
      intro he
      rw [he] at hn
      simp at hn
    have h9 : c ≠ '\t' := by
      intro he
      rw [he] at hn
      simp at hn
    have h13 : c ≠ '\r' := by
      intro he
      rw [he] at hn
      simp at hn
    have h10 : c ≠ '\n' := by
      intro he
      rw [he] at hn
      simp at hn
    simp [h32, h9, h13, h10]

theorem isPre_iff : ∀ (p s : List Char), isPre p s = true ↔ ∃ t, s = p ++ t
  | [], s => by simp [isPre]
  | c :: cs, [] => by simp [isPre]
  | c :: cs, d :: ds => by
    unfold isPre
    by_cases h : c = d
    · rw [if_pos h]
      rw [isPre_iff cs ds]
      subst h
      constructor
      · rintro ⟨t, ht⟩
        exact ⟨t, by simp [ht]⟩
      · rintro ⟨t, ht⟩
        simp only [List.cons_append, List.cons.injEq] at ht
        exact ⟨t, ht.2⟩
    · rw [if_neg h]
      simp only [Bool.false_eq_true, false_iff]
      rintro ⟨t, ht⟩
      simp only [List.cons_append, List.cons.injEq] at ht
      exact h ht.1.symm

theorem replaceFirst_cases (pat rep : List Char) : ∀ s : List Char,
    (replaceFirst pat rep s = s ∧ ¬ occursIn pat s) ∨
    (∃ p q, s = p ++ pat ++ q ∧ replaceFirst pat rep s = p ++ rep ++ q)
  | [] => by
    by_cases h : isPre pat [] = true
    · right
      obtain ⟨t, ht⟩ := (isPre_iff pat []).mp h
      have hpat : pat = [] := by
        cases pat with
        | nil => rfl
        | cons x xs => simp at ht
      refine ⟨[], [], by simp [hpat], ?_⟩
      unfold replaceFirst
      rw [if_pos h]
      simp [hpat]
    · left
      refine ⟨by unfold replaceFirst; rw [if_neg (by simpa using h)], ?_⟩
      rintro ⟨p, q, hpq⟩
      have : pat = [] := by
        have := hpq.symm
        rcases List.append_eq_nil.mp (List.append_eq_nil.mp this).1 with ⟨_, h2⟩
        exact h2
      rw [this] at h
      exact h (by simp [isPre])
  | c :: rest => by
    by_cases h : isPre pat (c :: rest) = true
    · right
      obtain ⟨t, ht⟩ := (isPre_iff pat (c :: rest)).mp h
      refine ⟨[], t, by simpa using ht, ?_⟩
      unfold replaceFirst
      rw [if_pos h, ht]
      simp [List.drop_left]
    · rcases replaceFirst_cases pat rep rest with ⟨heq, hno⟩ | ⟨p, q, hpq, heq⟩
      · left
        constructor
        · unfold replaceFirst
          rw [if_neg (by simpa using h), heq]
        · rintro ⟨p, q, hpq⟩
          cases p with
          | nil =>
            apply h
            rw [isPre_iff]
            exact ⟨q, by simpa using hpq⟩
          | cons x p' =>
            simp only [List.cons_append, List.append_assoc, List.cons.injEq] at hpq
            exact hno ⟨p', q, by rw [hpq.2]; simp⟩
      · right
        refine ⟨c :: p, q, by simp [hpq], ?_⟩
        unfold replaceFirst
        rw [if_neg (by simpa using h), heq]
        simp

theorem replaceFirst_of_not_occurs {pat rep s : List Char} (h : ¬ occursIn pat s) :
    replaceFirst pat rep s = s := by
  rcases replaceFirst_cases pat rep s with ⟨heq, _⟩ | ⟨p, q, hpq, _⟩
  · exact heq
  · exact absurd ⟨p, q, hpq⟩ h

/-- Disjointness of two substring occurrences whose head characters do not
occur in the other string: one occurrence lies entirely left of the
other. -/
theorem append_decomp_disjoint {a w b p n q : List Char}
    (h : a ++ (w ++ b) = p ++ (n ++ q)) (hw : w ≠ []) (hn : n ≠ [])
    (hnw : ∀ c, n.head? = some c → c ∉ w)
    (hwn : ∀ c, w.head? = some c → c ∉ n) :
    (∃ t, p = a ++ w ++ t) ∨ (∃ t, a = p ++ n ++ t) := by
  by_cases h1 : a.length + w.length ≤ p.length
  · left
    have hp : p = (a ++ (w ++ b)).take p.length := by
      rw [h, List.take_left]
    rw [← List.append_assoc] at hp
    rw [List.take_append_eq_append_take] at hp
    have hlen : (a ++ w).length ≤ p.length := by
      simpa [List.length_append] using h1
    rw [List.take_of_length_le hlen] at hp
    exact ⟨_, by rw [hp, List.append_assoc]⟩
  · by_cases h2 : p.length + n.length ≤ a.length
    · right
      have ha : a = (p ++ (n ++ q)).take a.length := by
        rw [← h, List.take_left]
      rw [← List.append_assoc] at ha
      rw [List.take_append_eq_append_take] at ha
      have hlen : (p ++ n).length ≤ a.length := by
        simpa [List.length_append] using h2
      rw [List.take_of_length_le hlen] at ha
      exact ⟨_, by rw [ha, List.append_assoc]⟩
    · exfalso
      push_neg at h1 h2
      by_cases hij : a.length ≤ p.length
      · -- the head of `n` falls inside `w`
        obtain ⟨nh, nt, hn'⟩ := List.exists_cons_of_ne_nil hn
        have e1 : (a ++ (w ++ b)).drop p.length = n ++ q := by
          rw [h, List.drop_left]
        rw [List.drop_append_eq_append_drop] at e1
        rw [List.drop_eq_nil_of_le hij] at e1
        have hlt : p.length - a.length < w.length := by omega
        rw [List.drop_append_eq_append_drop] at e1
        have hwd : w.drop (p.length - a.length) ≠ [] := by
          intro hnil
          have := List.length_drop (p.length - a.length) w
          rw [hnil] at this
          simp at this
          omega
        obtain ⟨wh, wt, hw'⟩ := List.exists_cons_of_ne_nil hwd
        have e2 : nh = wh := by
          rw [hn', hw'] at e1
          have := congrArg List.head? e1
          simpa using this.symm
        apply hnw nh (by simp [hn'])
        rw [e2]
        exact List.drop_subset _ _ (by rw [hw']; exact List.mem_cons_self _ _)
      · -- the head of `w` falls inside `n`
        push_neg at hij
        have hij' : p.length ≤ a.length := Nat.le_of_lt hij
        obtain ⟨wh, wt, hw'⟩ := List.exists_cons_of_ne_nil hw
        have e1 : (p ++ (n ++ q)).drop a.length = w ++ b := by
          rw [← h, List.drop_left]
        rw [List.drop_append_eq_append_drop] at e1
        rw [List.drop_eq_nil_of_le hij'] at e1
        have hlt : a.length - p.length < n.length := by omega
        rw [List.drop_append_eq_append_drop] at e1
        have hnd : n.drop (a.length - p.length) ≠ [] := by
          intro hnil
          have := List.length_drop (a.length - p.length) n
          rw [hnil] at this
          simp at this
          omega
        obtain ⟨xh, xt, hx'⟩ := List.exists_cons_of_ne_nil hnd
        have e2 : wh = xh := by
          rw [hw', hx'] at e1
          have := congrArg List.head? e1
          simpa using this.symm
        apply hwn wh (by simp [hw'])
        rw [e2]
        exact List.drop_subset _ _ (by rw [hx']; exact List.mem_cons_self _ _)

/-- Claim C2: the spec's worked example. -/
theorem claim_C2_example :
    generateBranchName "{user}/{number}-{title}".data
      ⟨"alice".data, some 42, "Fix Login Bug!!".data, none⟩ 60 =
      "alice/42-fix-login-bug".data := by decide

theorem findSlash_iff : ∀ (l a b : List Char),
    findSlash l = some (a, b) ↔ (l = a ++ '/' :: b ∧ ∀ c ∈ a, c ≠ '/')
  | [], a, b => by
    simp only [findSlash]
    constructor
    · intro h; cases h
    · rintro ⟨h, _⟩
      exact absurd h (by simp)
  | c :: rest, a, b => by
    unfold findSlash
    by_cases hc : c = '/'
    · rw [if_pos hc]
      subst hc
      simp only [Option.some.injEq, Prod.mk.injEq]
      constructor
      · rintro ⟨rfl, rfl⟩
        exact ⟨rfl, by simp⟩
      · rintro ⟨heq, hall⟩
        cases a with
        | nil =>
          simp only [List.nil_append, List.cons.injEq] at heq
          exact ⟨rfl, heq.2⟩
        | cons x a2 =>
          simp only [List.cons_append, List.cons.injEq] at heq
          exact absurd heq.1.symm (hall x (List.mem_cons_self _ _))
    · rw [if_neg hc]
      cases hfs : findSlash rest with
      | none =>
        constructor
        · intro h; cases h
        · rintro ⟨heq, hall⟩
          cases a with
          | nil =>
            simp only [List.nil_append, List.cons.injEq] at heq
            exact absurd heq.1 hc
          | cons x a2 =>
            simp only [List.cons_append, List.cons.injEq] at heq
            have : findSlash rest = some (a2, b) :=
              (findSlash_iff rest a2 b).mpr
                ⟨heq.2, fun d hd => hall d (List.mem_cons_of_mem _ hd)⟩
            rw [hfs] at this
            cases this
      | some pq =>
        obtain ⟨p, q⟩ := pq
        obtain ⟨hpq1, hpq2⟩ := (findSlash_iff rest p q).mp hfs
        simp only [Option.some.injEq, Prod.mk.injEq]
        constructor
        · rintro ⟨rfl, rfl⟩
          refine ⟨by rw [hpq1]; simp, ?_⟩
          intro d hd
          rcases List.mem_cons.mp hd with rfl | hd
          · exact hc
          · exact hpq2 d hd
        · rintro ⟨heq, hall⟩
          cases a with
          | nil =>
            simp only [List.nil_append, List.cons.injEq] at heq
            exact absurd heq.1 hc
          | cons x a2 =>
            simp only [List.cons_append, List.cons.injEq] at heq
            have : findSlash rest = some (a2, b) :=
              (findSlash_iff rest a2 b).mpr
                ⟨heq.2, fun d hd => hall d (List.mem_cons_of_mem _ hd)⟩
            rw [hfs] at this
            injection this with this
            injection this with h1 h2
            exact ⟨by rw [heq.1, h1], h2⟩

theorem takeDigits_spec : ∀ l : List Char,
    l = (takeDigits l).1 ++ (takeDigits l).2 ∧
    ∀ c ∈ (takeDigits l).1, c.isDigit = true
  | [] => by simp [takeDigits]
  | c :: rest => by
    unfold takeDigits
    by_cases hc : c.isDigit = true
    · rw [if_pos hc]
      obtain ⟨ih1, ih2⟩ := takeDigits_spec rest
      constructor
      · simpa using ih1
      · intro d hd
        rcases List.mem_cons.mp hd with rfl | hd
        · exact hc
        · exact ih2 d hd
    · rw [if_neg hc]
      simp

theorem takeDigits_append_digits : ∀ (d : List Char) (r : List Char),
    (∀ c ∈ d, c.isDigit = true) → (∀ x, r.head? = some x → x.isDigit = false) →
    takeDigits (d ++ r) = (d, r)
  | [], r, _, hr => by
    cases r with
    | nil => rfl
    | cons x t =>
      rw [List.nil_append]
      simp only [takeDigits]
      rw [if_neg (by simp [hr x rfl])]
  | c :: d2, r, hd, hr => by
    have ih := takeDigits_append_digits d2 r (fun x hx => hd x (List.mem_cons_of_mem _ hx)) hr
    rw [List.cons_append]
    simp only [takeDigits]
    rw [if_pos (hd c (List.mem_cons_self _ _)), ih]

theorem matchBranchPrefix_of_regexSplit {a d rest l : List Char}
    (h : regexSplit a d rest l) :
    matchBranchPrefix l = some (a ++ '/' :: (d ++ ['-'])) := by
  obtain ⟨ha, hslash, hd, hdig, heq⟩ := h
  have hfs : findSlash l = some (a, d ++ '-' :: rest) :=
    (findSlash_iff l a (d ++ '-' :: rest)).mpr ⟨heq, hslash⟩
  have htd : takeDigits (d ++ '-' :: rest) = (d, '-' :: rest) :=
    takeDigits_append_digits d ('-' :: rest) hdig
      (by intro x hx; injection hx with hx; subst hx; decide)
  unfold matchBranchPrefix
  rw [hfs]
  simp only [htd]
  simp [ha, hd]

theorem regexSplit_of_matchBranchPrefix {l p : List Char}
    (h : matchBranchPrefix l = some p) :
    ∃ a d rest, regexSplit a d rest l ∧ p = a ++ '/' :: (d ++ ['-']) := by
  unfold matchBranchPrefix at h
  cases hfs : findSlash l with
  | none => rw [hfs] at h; cases h
  | some ab =>
    obtain ⟨a, b⟩ := ab
    rw [hfs] at h
    simp only at h
    by_cases ha : a = []
    · rw [if_pos ha] at h; cases h
    · rw [if_neg ha] at h
      rcases htd : takeDigits b with ⟨D, R⟩
      have hb : b = D ++ R := by
        have hx := (takeDigits_spec b).1
        rw [htd] at hx
        exact hx
      have hdig : ∀ c ∈ D, c.isDigit = true := by
        have hx := (takeDigits_spec b).2
        rw [htd] at hx
        exact hx
      rw [htd] at h
      simp only at h
      by_cases hD : D = []
      · rw [if_pos hD] at h; cases h
      · rw [if_neg hD] at h
        by_cases hh : R.head? = some '-'
        · rw [if_pos hh] at h
          injection h with h
          cases R with
          | nil => simp at hh
          | cons x t =>
            have hx : x = '-' := by simpa using hh
            subst hx
            obtain ⟨hl, hslash⟩ := (findSlash_iff l a b).mp hfs
            exact ⟨a, D, t, ⟨ha, hslash, hD, hdig, by rw [hl, hb]⟩, h.symm⟩
        · rw [if_neg hh] at h
          cases h

/-- Claim C1: when the substituted name is longer than `maxLength`, the
result keeps a front matching "non-slash chars, slash, digits, hyphen"
verbatim followed by the sanitized title cut to the remaining budget with
one trailing hyphen stripped; without such a front the whole substituted
string is cut to `maxLength` characters. -/
theorem claim_C1_truncation (pat : List Char) (v : BranchVars) (maxLength : Nat)
    (hlong : (substitutedName pat v).length > maxLength) :
    (∀ a d rest, regexSplit a d rest (substitutedName pat v) →
      generateBranchName pat v maxLength =
        (a ++ '/' :: (d ++ ['-'])) ++
          dropTrailingHyphen ((sanitizeForBranchName v.title).take
            (maxLength - (a ++ '/' :: (d ++ ['-'])).length))) ∧
    ((¬ ∃ a d rest, regexSplit a d rest (substitutedName pat v)) →
      generateBranchName pat v maxLength = (substitutedName pat v).take maxLength) := by
  constructor
  · intro a d rest hsplit
    have hm := matchBranchPrefix_of_regexSplit hsplit
    unfold generateBranchName
    rw [if_pos hlong, hm]
  · intro hne
    have hnone : matchBranchPrefix (substitutedName pat v) = none := by
      cases hsome : matchBranchPrefix (substitutedName pat v) with
      | none => rfl
      | some p =>
        obtain ⟨a, d, rest, hsplit, _⟩ := regexSplit_of_matchBranchPrefix hsome
        exact absurd ⟨a, d, rest, hsplit⟩ hne
    unfold generateBranchName
    rw [if_pos hlong, hnone]

/-- Witness for claim C1 at a concrete long title. -/
theorem claim_C1_truncation_witness :
    generateBranchName "{user}/{number}-{title}".data
      ⟨"alice".data, some 42, "fix the login bug completely".data, none⟩ 20 =
      "alice/42-fix-the-log".data := by
  have h := (claim_C1_truncation "{user}/{number}-{title}".data
      ⟨"alice".data, some 42, "fix the login bug completely".data, none⟩ 20
      (by decide)).1
      "alice".data "42".data "fix-the-login-bug-completely".data
      ⟨by decide, by decide, by decide, by decide, by decide⟩
  rw [h]
  decide

/-- Claim C9: there are inputs on which the returned branch name is longer
than `maxLength`: a matched front longer than the budget is returned
unshortened. -/
theorem claim_C9_prefix_exceeds_maxLength :
    ∃ (pat : List Char) (v : BranchVars) (maxLength : Nat) (pfx : List Char),
      (substitutedName pat v).length > maxLength ∧
      matchBranchPrefix (substitutedName pat v) = some pfx ∧
      pfx.length > maxLength ∧
      generateBranchName pat v maxLength = pfx ∧
      (generateBranchName pat v maxLength).length > maxLength :=
  ⟨"{user}/{number}-{title}".data,
    ⟨"verylonguser".data, some 12345, "fix".data, none⟩, 5,
    "verylonguser/12345-".data,
    by decide, by decide, by decide, by decide, by decide⟩

theorem containsSub_iff : ∀ (pat s : List Char),
    containsSub pat s = true ↔ occursIn pat s
  | pat, [] => by
    simp only [containsSub]
    rw [isPre_iff]
    constructor
    · rintro ⟨t, ht⟩
      have hp : pat = [] := by
        cases pat with
        | nil => rfl
        | cons x xs => simp at ht
      subst hp
      exact ⟨[], [], by simp⟩
    · rintro ⟨p, q, hpq⟩
      have h1 := List.append_eq_nil.mp hpq.symm
      have h2 := List.append_eq_nil.mp h1.1
      exact ⟨[], by simp [h2.2]⟩
  | pat, c :: rest => by
    simp only [containsSub, Bool.or_eq_true]
    rw [isPre_iff, containsSub_iff pat rest]
    constructor
    · rintro (⟨t, ht⟩ | ⟨p, q, hpq⟩)
      · exact ⟨[], t, by simpa using ht⟩
      · exact ⟨c :: p, q, by simp [hpq]⟩
    · rintro ⟨p, q, hpq⟩
      cases p with
      | nil => exact Or.inl ⟨q, by simpa using hpq⟩
      | cons x p2 =>
        right
        simp only [List.cons_append, List.append_assoc, List.cons.injEq] at hpq
        refine ⟨p2, q, ?_⟩
        rw [hpq.2]
        simp

theorem occurs_replaceFirst {w pat rep s : List Char}
    (hocc : occursIn w s) (hw : w ≠ []) (hpat : pat ≠ [])
    (hpw : ∀ c, pat.head? = some c → c ∉ w)
    (hwp : ∀ c, w.head? = some c → c ∉ pat) :
    occursIn w (replaceFirst pat rep s) := by
  rcases replaceFirst_cases pat rep s with ⟨heq, _⟩ | ⟨p, q, hpq, heq⟩
  · rw [heq]; exact hocc
  · obtain ⟨a, b, hab⟩ := hocc
    have hdec : a ++ (w ++ b) = p ++ (pat ++ q) := by
      rw [← List.append_assoc, ← List.append_assoc, ← hab, ← hpq]
    rcases append_decomp_disjoint hdec hw hpat hpw hwp with ⟨t, hp⟩ | ⟨t, ha2⟩
    · rw [heq, hp]
      exact ⟨a, t ++ rep ++ q, by simp⟩
    · have hq : q = t ++ (w ++ b) := by
        have h0 : p ++ (pat ++ q) = p ++ (pat ++ (t ++ (w ++ b))) := by
          rw [← hdec, ha2]
          simp [List.append_assoc]
        exact List.append_cancel_left (List.append_cancel_left h0)
      rw [heq, hq]
      exact ⟨p ++ rep ++ t, b, by simp⟩

/-- Counterexample for claim C5 as stated: with an absent issue number but a
small `maxLength`, the hard truncation cuts the substituted name before the
`draft` marker, so the returned branch name does not contain `draft`. -/
theorem claim_C5_counterexample :
    containsSub "draft".data
      (generateBranchName "{user}/{number}-{title}".data
        ⟨"alice".data, none, "Fix Login Bug!!".data, none⟩ 3) = false := by decide

/-- Claim C5 as amended: with an absent issue number the `number`
placeholder is substituted by the literal `draft`, and whenever the
substituted name fits within `maxLength` (so that no truncation occurs),
the returned branch name contains `draft`. -/
theorem claim_C5_amended (user title : List Char) (repo : Option (List Char))
    (maxLength : Nat)
    (hfit : (substitutedName "{user}/{number}-{title}".data
        ⟨user, none, title, repo⟩).length ≤ maxLength) :
    containsSub "draft".data
      (substitutedName "{user}/{number}-{title}".data ⟨user, none, title, repo⟩) = true ∧
    containsSub "draft".data
      (generateBranchName "{user}/{number}-{title}".data
        ⟨user, none, title, repo⟩ maxLength) = true := by
  have hsub : substitutedName "{user}/{number}-{title}".data ⟨user, none, title, repo⟩ =
      replaceFirst "{repo}".data (repoToChars repo)
        (replaceFirst "{title}".data (sanitizeForBranchName title)
          (replaceFirst "{number}".data "draft".data
            (user ++ "/{number}-{title}".data))) := rfl
  have hocc1 : occursIn "{number}".data (user ++ "/{number}-{title}".data) := by
    refine ⟨user ++ ['/'], "-{title}".data, ?_⟩
    have hconc : ("/{number}-{title}".data : List Char) =
        ['/'] ++ ("{number}".data ++ "-{title}".data) := rfl
    rw [hconc]
    simp [List.append_assoc]
  have hocc2 : occursIn "draft".data
      (replaceFirst "{number}".data "draft".data (user ++ "/{number}-{title}".data)) := by
    rcases replaceFirst_cases "{number}".data "draft".data
        (user ++ "/{number}-{title}".data) with ⟨heq2, hno⟩ | ⟨p, q, _, heq2⟩
    · exact absurd hocc1 hno
    · exact ⟨p, q, heq2⟩
  have hocc3 : occursIn "draft".data
      (replaceFirst "{title}".data (sanitizeForBranchName title)
        (replaceFirst "{number}".data "draft".data (user ++ "/{number}-{title}".data))) := by
    refine occurs_replaceFirst hocc2 (by decide) (by decide) ?_ ?_
    · intro c hc
      have hcc : '{' = c := by injection hc
      subst hcc
      decide
    · intro c hc
      have hcc : 'd' = c := by injection hc
      subst hcc
      decide
  have hocc4 : occursIn "draft".data
      (substitutedName "{user}/{number}-{title}".data ⟨user, none, title, repo⟩) := by
    rw [hsub]
    refine occurs_replaceFirst hocc3 (by decide) (by decide) ?_ ?_
    · intro c hc
      have hcc : '{' = c := by injection hc
      subst hcc
      decide
    · intro c hc
      have hcc : 'd' = c := by injection hc
      subst hcc
      decide
  refine ⟨(containsSub_iff _ _).mpr hocc4, ?_⟩
  have hgen : generateBranchName "{user}/{number}-{title}".data
      ⟨user, none, title, repo⟩ maxLength =
      substitutedName "{user}/{number}-{title}".data ⟨user, none, title, repo⟩ := by
    unfold generateBranchName
    rw [if_neg (by omega)]
  rw [hgen]
  exact (containsSub_iff _ _).mpr hocc4

/-- Witness for the amended claim C5 at the spec's example inputs. -/
theorem claim_C5_amended_witness :
    containsSub "draft".data
      (generateBranchName "{user}/{number}-{title}".data
        ⟨"alice".data, none, "Fix Login Bug!!".data, none⟩ 60) = true :=
  (claim_C5_amended "alice".data "Fix Login Bug!!".data none 60 (by decide)).2

theorem mem_SYNCABLE_KEYS (k : SyncKey) : k ∈ SYNCABLE_KEYS := by
  cases k <;> decide

theorem CLI_TO_VSCODE_MAP_inj {k k2 : SyncKey} :
    CLI_TO_VSCODE_MAP k = CLI_TO_VSCODE_MAP k2 ↔ k = k2 := by
  cases k <;> cases k2 <;> simp [CLI_TO_VSCODE_MAP]

theorem cliOnlyStep_none {cliS : SyncableSettings} {k : SyncKey}
    (acc : MergePatches) (h : cliS k = none) : cliOnlyStep cliS acc k = acc := by
  unfold cliOnlyStep
  rw [h]

theorem cliOnlyStep_some {cliS : SyncableSettings} {k : SyncKey} {v : String}
    (acc : MergePatches) (h : cliS k = some v) :
    cliOnlyStep cliS acc k =
      if v = "" then acc else updateVs acc (CLI_TO_VSCODE_MAP k) v := by
  unfold cliOnlyStep
  rw [h]

theorem vscodeOnlyStep_none {vsS : SyncableSettings} {k : SyncKey}
    (acc : MergePatches) (h : vsS k = none) : vscodeOnlyStep vsS acc k = acc := by
  unfold vscodeOnlyStep
  rw [h]

theorem vscodeOnlyStep_some {vsS : SyncableSettings} {k : SyncKey} {v : String}
    (acc : MergePatches) (h : vsS k = some v) :
    vscodeOnlyStep vsS acc k = if v = "" then acc else updateCli acc k v := by
  unfold vscodeOnlyStep
  rw [h]

theorem cliOnlyStep_cli (cliS : SyncableSettings) (acc : MergePatches) (k : SyncKey) :
    (cliOnlyStep cliS acc k).cli = acc.cli := by
  cases h : cliS k with
  | none => rw [cliOnlyStep_none acc h]
  | some v =>
    rw [cliOnlyStep_some acc h]
    by_cases hv : v = ""
    · rw [if_pos hv]
    · rw [if_neg hv]
      rfl

theorem vscodeOnlyStep_vscode (vsS : SyncableSettings) (acc : MergePatches) (k : SyncKey) :
    (vscodeOnlyStep vsS acc k).vscode = acc.vscode := by
  cases h : vsS k with
  | none => rw [vscodeOnlyStep_none acc h]
  | some v =>
    rw [vscodeOnlyStep_some acc h]
    by_cases hv : v = ""
    · rw [if_pos hv]
    · rw [if_neg hv]
      rfl

theorem foldl_cliOnlyStep_cli (cliS : SyncableSettings) :
    ∀ (l : List SyncKey) (acc : MergePatches),
    (l.foldl (cliOnlyStep cliS) acc).cli = acc.cli
  | [], acc => rfl
  | k :: rest, acc => by
    rw [List.foldl_cons, foldl_cliOnlyStep_cli cliS rest, cliOnlyStep_cli]

theorem foldl_vscodeOnlyStep_vscode (vsS : SyncableSettings) :
    ∀ (l : List SyncKey) (acc : MergePatches),
    (l.foldl (vscodeOnlyStep vsS) acc).vscode = acc.vscode
  | [], acc => rfl
  | k :: rest, acc => by
    rw [List.foldl_cons, foldl_vscodeOnlyStep_vscode vsS rest, vscodeOnlyStep_vscode]

theorem foldl_cliOnlyStep_vscode (cliS : SyncableSettings) :
    ∀ (l : List SyncKey) (acc : MergePatches) (k : SyncKey),
    (l.foldl (cliOnlyStep cliS) acc).vscode (CLI_TO_VSCODE_MAP k) =
      if k ∈ l ∧ truthy (cliS k) = true then cliS k
      else acc.vscode (CLI_TO_VSCODE_MAP k)
  | [], acc, k => by simp
  | k2 :: rest, acc, k => by
    rw [List.foldl_cons, foldl_cliOnlyStep_vscode cliS rest]
    by_cases hmem : k ∈ rest ∧ truthy (cliS k) = true
    · rw [if_pos hmem, if_pos ⟨List.mem_cons_of_mem _ hmem.1, hmem.2⟩]
    · rw [if_neg hmem]
      by_cases hk : k = k2
      · subst hk
        cases hck : cliS k with
        | none =>
          rw [cliOnlyStep_none acc hck, if_neg]
          rintro ⟨-, ht⟩
          simp [truthy] at ht
        | some v =>
          rw [cliOnlyStep_some acc hck]
          by_cases hv : v = ""
          · rw [if_pos hv, if_neg]
            rintro ⟨-, ht⟩
            simp [truthy, hv] at ht
          · rw [if_neg hv]
            show (if CLI_TO_VSCODE_MAP k = CLI_TO_VSCODE_MAP k then some v
              else acc.vscode (CLI_TO_VSCODE_MAP k)) = _
            rw [if_pos rfl, if_pos ⟨List.mem_cons_self _ _, by simp [hck, truthy, hv]⟩]
      · have hstep : (cliOnlyStep cliS acc k2).vscode (CLI_TO_VSCODE_MAP k) =
            acc.vscode (CLI_TO_VSCODE_MAP k) := by
          cases hck2 : cliS k2 with
          | none => rw [cliOnlyStep_none acc hck2]
          | some v =>
            rw [cliOnlyStep_some acc hck2]
            by_cases hv : v = ""
            · rw [if_pos hv]
            · rw [if_neg hv]
              show (if CLI_TO_VSCODE_MAP k = CLI_TO_VSCODE_MAP k2 then some v
                else acc.vscode (CLI_TO_VSCODE_MAP k)) = _
              rw [if_neg (fun he => hk (CLI_TO_VSCODE_MAP_inj.mp he))]
        rw [hstep, if_neg]
        rintro ⟨hmem2, ht⟩
        rcases List.mem_cons.mp hmem2 with rfl | hmem2
        · exact hk rfl
        · exact hmem ⟨hmem2, ht⟩

theorem foldl_vscodeOnlyStep_cli (vsS : SyncableSettings) :
    ∀ (l : List SyncKey) (acc : MergePatches) (k : SyncKey),
    (l.foldl (vscodeOnlyStep vsS) acc).cli k =
      if k ∈ l ∧ truthy (vsS k) = true then vsS k else acc.cli k
  | [], acc, k => by simp
  | k2 :: rest, acc, k => by
    rw [List.foldl_cons, foldl_vscodeOnlyStep_cli vsS rest]
    by_cases hmem : k ∈ rest ∧ truthy (vsS k) = true
    · rw [if_pos hmem, if_pos ⟨List.mem_cons_of_mem _ hmem.1, hmem.2⟩]
    · rw [if_neg hmem]
      by_cases hk : k = k2
      · subst hk
        cases hck : vsS k with
        | none =>
          rw [vscodeOnlyStep_none acc hck, if_neg]
          rintro ⟨-, ht⟩
          simp [truthy] at ht
        | some v =>
          rw [vscodeOnlyStep_some acc hck]
          by_cases hv : v = ""
          · rw [if_pos hv, if_neg]
            rintro ⟨-, ht⟩
            simp [truthy, hv] at ht
          · rw [if_neg hv]
            show (if k = k then some v else acc.cli k) = _
            rw [if_pos rfl, if_pos ⟨List.mem_cons_self _ _, by simp [hck, truthy, hv]⟩]
      · have hstep : (vscodeOnlyStep vsS acc k2).cli k = acc.cli k := by
          cases hck2 : vsS k2 with
          | none => rw [vscodeOnlyStep_none acc hck2]
          | some v =>
            rw [vscodeOnlyStep_some acc hck2]
            by_cases hv : v = ""
            · rw [if_pos hv]
            · rw [if_neg hv]
              show (if k = k2 then some v else acc.cli k) = _
              rw [if_neg hk]
        rw [hstep, if_neg]
        rintro ⟨hmem2, ht⟩
        rcases List.mem_cons.mp hmem2 with rfl | hmem2
        · exact hk rfl
        · exact hmem ⟨hmem2, ht⟩

theorem foldl_conflictStep_cli (choices : ConflictChoices) :
    ∀ (l : List SettingConflict) (acc : MergePatches) (k : SyncKey),
    (∀ c ∈ l, c.key ≠ k) → (l.foldl (conflictStep choices) acc).cli k = acc.cli k
  | [], acc, k, _ => rfl
  | c :: rest, acc, k, h => by
    rw [List.foldl_cons, foldl_conflictStep_cli choices rest _ k
      (fun c2 hc2 => h c2 (List.mem_cons_of_mem _ hc2))]
    have hck : c.key ≠ k := h c (List.mem_cons_self _ _)
    unfold conflictStep
    cases (choices c.key).getD Resolution.skipKey with
    | useCli => rfl
    | useVSCode =>
      show (if k = c.key then some c.vscodeValue else acc.cli k) = _
      rw [if_neg (fun he => hck he.symm)]
    | useCustom v =>
      show (if k = c.key then some v else acc.cli k) = _
      rw [if_neg (fun he => hck he.symm)]
    | skipKey => rfl

theorem foldl_conflictStep_vscode (choices : ConflictChoices) :
    ∀ (l : List SettingConflict) (acc : MergePatches) (vk : VSKey),
    (∀ c ∈ l, CLI_TO_VSCODE_MAP c.key ≠ vk) →
    (l.foldl (conflictStep choices) acc).vscode vk = acc.vscode vk
  | [], acc, vk, _ => rfl
  | c :: rest, acc, vk, h => by
    rw [List.foldl_cons, foldl_conflictStep_vscode choices rest _ vk
      (fun c2 hc2 => h c2 (List.mem_cons_of_mem _ hc2))]
    have hck : CLI_TO_VSCODE_MAP c.key ≠ vk := h c (List.mem_cons_self _ _)
    unfold conflictStep
    cases (choices c.key).getD Resolution.skipKey with
    | useCli =>
      show (if vk = CLI_TO_VSCODE_MAP c.key then some c.cliValue else acc.vscode vk) = _
      rw [if_neg (fun he => hck he.symm)]
    | useVSCode => rfl
    | useCustom v =>
      show (if vk = CLI_TO_VSCODE_MAP c.key then some v else acc.vscode vk) = _
      rw [if_neg (fun he => hck he.symm)]
    | skipKey => rfl

theorem mem_matching_iff {cliS vsS : SyncableSettings} {k : SyncKey} {v : String} :
    (k, v) ∈ (computeSettingsDiff cliS vsS).matching ↔
      cliS k = some v ∧ vsS k = some v := by
  unfold computeSettingsDiff
  simp only [List.mem_filterMap]
  constructor
  · rintro ⟨k2, -, hf⟩
    cases ha : cliS k2 with
    | none => rw [ha] at hf; cases hb : vsS k2 <;> rw [hb] at hf <;> simp at hf
    | some va =>
      cases hb : vsS k2 with
      | none => rw [ha, hb] at hf; simp at hf
      | some vb =>
        rw [ha, hb] at hf
        have hf2 : (if va = vb then some (k2, va) else none) = some ((k, v) : SyncKey × String) := hf
        by_cases hab : va = vb
        · rw [if_pos hab] at hf2
          simp only [Option.some.injEq, Prod.mk.injEq] at hf2
          obtain ⟨rfl, rfl⟩ := hf2
          exact ⟨ha, hab ▸ hb⟩
        · rw [if_neg hab] at hf2
          cases hf2
  · rintro ⟨ha, hb⟩
    refine ⟨k, mem_SYNCABLE_KEYS k, ?_⟩
    rw [ha, hb]
    show (if v = v then some (k, v) else none) = some ((k, v) : SyncKey × String)
    rw [if_pos rfl]

theorem mem_conflicts_iff {cliS vsS : SyncableSettings} {c : SettingConflict} :
    c ∈ (computeSettingsDiff cliS vsS).conflicts ↔
      cliS c.key = some c.cliValue ∧ vsS c.key = some c.vscodeValue ∧
        c.cliValue ≠ c.vscodeValue ∧ c.displayName = SETTING_DISPLAY_NAMES c.key := by
  unfold computeSettingsDiff
  simp only [List.mem_filterMap]
  constructor
  · rintro ⟨k2, -, hf⟩
    cases ha : cliS k2 with
    | none => rw [ha] at hf; cases hb : vsS k2 <;> rw [hb] at hf <;> simp at hf
    | some va =>
      cases hb : vsS k2 with
      | none => rw [ha, hb] at hf; simp at hf
      | some vb =>
        rw [ha, hb] at hf
        have hf2 : (if va = vb then none
            else some (⟨k2, va, vb, SETTING_DISPLAY_NAMES k2⟩ : SettingConflict)) = some c := hf
        by_cases hab : va = vb
        · rw [if_pos hab] at hf2
          cases hf2
        · rw [if_neg hab] at hf2
          simp only [Option.some.injEq] at hf2
          subst hf2
          exact ⟨ha, hb, hab, rfl⟩
  · rintro ⟨ha, hb, hab, hd⟩
    refine ⟨c.key, mem_SYNCABLE_KEYS c.key, ?_⟩
    rw [ha, hb]
    show (if c.cliValue = c.vscodeValue then none
      else some (⟨c.key, c.cliValue, c.vscodeValue, SETTING_DISPLAY_NAMES c.key⟩
        : SettingConflict)) = some c
    rw [if_neg hab]
    cases c with
    | mk k cv vv dn =>
      simp only at hd ⊢
      rw [hd]

theorem mem_cliOnly_iff {cliS vsS : SyncableSettings} {k : SyncKey} {v : String} :
    (k, v) ∈ (computeSettingsDiff cliS vsS).cliOnly ↔
      cliS k = some v ∧ vsS k = none := by
  unfold computeSettingsDiff
  simp only [List.mem_filterMap]
  constructor
  · rintro ⟨k2, -, hf⟩
    cases ha : cliS k2 with
    | none => rw [ha] at hf; cases hb : vsS k2 <;> rw [hb] at hf <;> simp at hf
    | some va =>
      cases hb : vsS k2 with
      | none =>
        rw [ha, hb] at hf
        have hf2 : some (k2, va) = some ((k, v) : SyncKey × String) := hf
        simp only [Option.some.injEq, Prod.mk.injEq] at hf2
        obtain ⟨rfl, rfl⟩ := hf2
        exact ⟨ha, hb⟩
      | some vb => rw [ha, hb] at hf; simp at hf
  · rintro ⟨ha, hb⟩
    refine ⟨k, mem_SYNCABLE_KEYS k, ?_⟩
    rw [ha, hb]

theorem mem_vscodeOnly_iff {cliS vsS : SyncableSettings} {k : SyncKey} {v : String} :
    (k, v) ∈ (computeSettingsDiff cliS vsS).vscodeOnly ↔
      cliS k = none ∧ vsS k = some v := by
  unfold computeSettingsDiff
  simp only [List.mem_filterMap]
  constructor
  · rintro ⟨k2, -, hf⟩
    cases ha : cliS k2 with
    | none =>
      cases hb : vsS k2 with
      | none => rw [ha, hb] at hf; simp at hf
      | some vb =>
        rw [ha, hb] at hf
        have hf2 : some (k2, vb) = some ((k, v) : SyncKey × String) := hf
        simp only [Option.some.injEq, Prod.mk.injEq] at hf2
        obtain ⟨rfl, rfl⟩ := hf2
        exact ⟨ha, hb⟩
    | some va => rw [ha] at hf; cases hb : vsS k2 <;> rw [hb] at hf <;> simp at hf
  · rintro ⟨ha, hb⟩
    refine ⟨k, mem_SYNCABLE_KEYS k, ?_⟩
    rw [ha, hb]

theorem key_mem_matching {cliS vsS : SyncableSettings} {k : SyncKey} :
    k ∈ ((computeSettingsDiff cliS vsS).matching.map Prod.fst) ↔
      ∃ v, cliS k = some v ∧ vsS k = some v := by
  simp only [List.mem_map]
  constructor
  · rintro ⟨⟨k2, v⟩, hmem, rfl⟩
    obtain ⟨ha, hb⟩ := mem_matching_iff.mp hmem
    exact ⟨v, ha, hb⟩
  · rintro ⟨v, ha, hb⟩
    exact ⟨(k, v), mem_matching_iff.mpr ⟨ha, hb⟩, rfl⟩

theorem key_mem_conflicts {cliS vsS : SyncableSettings} {k : SyncKey} :
    k ∈ ((computeSettingsDiff cliS vsS).conflicts.map SettingConflict.key) ↔
      ∃ va vb, cliS k = some va ∧ vsS k = some vb ∧ va ≠ vb := by
  simp only [List.mem_map]
  constructor
  · rintro ⟨c, hmem, rfl⟩
    obtain ⟨ha, hb, hab, -⟩ := mem_conflicts_iff.mp hmem
    exact ⟨c.cliValue, c.vscodeValue, ha, hb, hab⟩
  · rintro ⟨va, vb, ha, hb, hab⟩
    exact ⟨⟨k, va, vb, SETTING_DISPLAY_NAMES k⟩,
      mem_conflicts_iff.mpr ⟨ha, hb, hab, rfl⟩, rfl⟩

theorem key_mem_cliOnly {cliS vsS : SyncableSettings} {k : SyncKey} :
    k ∈ ((computeSettingsDiff cliS vsS).cliOnly.map Prod.fst) ↔
      (∃ v, cliS k = some v) ∧ vsS k = none := by
  simp only [List.mem_map]
  constructor
  · rintro ⟨⟨k2, v⟩, hmem, rfl⟩
    obtain ⟨ha, hb⟩ := mem_cliOnly_iff.mp hmem
    exact ⟨⟨v, ha⟩, hb⟩
  · rintro ⟨⟨v, ha⟩, hb⟩
    exact ⟨(k, v), mem_cliOnly_iff.mpr ⟨ha, hb⟩, rfl⟩

theorem key_mem_vscodeOnly {cliS vsS : SyncableSettings} {k : SyncKey} :
    k ∈ ((computeSettingsDiff cliS vsS).vscodeOnly.map Prod.fst) ↔
      cliS k = none ∧ (∃ v, vsS k = some v) := by
  simp only [List.mem_map]
  constructor
  · rintro ⟨⟨k2, v⟩, hmem, rfl⟩
    obtain ⟨ha, hb⟩ := mem_vscodeOnly_iff.mp hmem
    exact ⟨ha, ⟨v, hb⟩⟩
  · rintro ⟨ha, ⟨v, hb⟩⟩
    exact ⟨(k, v), mem_vscodeOnly_iff.mpr ⟨ha, hb⟩, rfl⟩

/-- Claim C7: the diff of two sources partitions the present keys - every
key present in at least one source lies in exactly one of the four lists,
a key absent from both lies in none, and the four lists are pairwise
disjoint in key membership. -/
theorem claim_C7_diff_partition (cliS vsS : SyncableSettings) (k : SyncKey) :
    (((cliS k).isSome = true ∨ (vsS k).isSome = true) →
      (k ∈ ((computeSettingsDiff cliS vsS).matching.map Prod.fst) ∨
       k ∈ ((computeSettingsDiff cliS vsS).conflicts.map SettingConflict.key) ∨
       k ∈ ((computeSettingsDiff cliS vsS).cliOnly.map Prod.fst) ∨
       k ∈ ((computeSettingsDiff cliS vsS).vscodeOnly.map Prod.fst))) ∧
    ((cliS k = none ∧ vsS k = none) →
      (k ∉ ((computeSettingsDiff cliS vsS).matching.map Prod.fst) ∧
       k ∉ ((computeSettingsDiff cliS vsS).conflicts.map SettingConflict.key) ∧
       k ∉ ((computeSettingsDiff cliS vsS).cliOnly.map Prod.fst) ∧
       k ∉ ((computeSettingsDiff cliS vsS).vscodeOnly.map Prod.fst))) ∧
    ¬(k ∈ ((computeSettingsDiff cliS vsS).matching.map Prod.fst) ∧
      k ∈ ((computeSettingsDiff cliS vsS).conflicts.map SettingConflict.key)) ∧
    ¬(k ∈ ((computeSettingsDiff cliS vsS).matching.map Prod.fst) ∧
      k ∈ ((computeSettingsDiff cliS vsS).cliOnly.map Prod.fst)) ∧
    ¬(k ∈ ((computeSettingsDiff cliS vsS).matching.map Prod.fst) ∧
      k ∈ ((computeSettingsDiff cliS vsS).vscodeOnly.map Prod.fst)) ∧
    ¬(k ∈ ((computeSettingsDiff cliS vsS).conflicts.map SettingConflict.key) ∧
      k ∈ ((computeSettingsDiff cliS vsS).cliOnly.map Prod.fst)) ∧
    ¬(k ∈ ((computeSettingsDiff cliS vsS).conflicts.map SettingConflict.key) ∧
      k ∈ ((computeSettingsDiff cliS vsS).vscodeOnly.map Prod.fst)) ∧
    ¬(k ∈ ((computeSettingsDiff cliS vsS).cliOnly.map Prod.fst) ∧
      k ∈ ((computeSettingsDiff cliS vsS).vscodeOnly.map Prod.fst)) := by
  rcases hck : cliS k with _ | va <;> rcases hvk : vsS k with _ | vb
  · simp only [key_mem_matching, key_mem_conflicts, key_mem_cliOnly, key_mem_vscodeOnly,
      hck, hvk]
    simp
  · simp only [key_mem_matching, key_mem_conflicts, key_mem_cliOnly, key_mem_vscodeOnly,
      hck, hvk]
    simp
  · simp only [key_mem_matching, key_mem_conflicts, key_mem_cliOnly, key_mem_vscodeOnly,
      hck, hvk]
    simp
  · by_cases hab : va = vb
    · subst hab
      simp only [key_mem_matching, key_mem_conflicts, key_mem_cliOnly, key_mem_vscodeOnly,
        hck, hvk]
      simp
    · simp only [key_mem_matching, key_mem_conflicts, key_mem_cliOnly, key_mem_vscodeOnly,
        hck, hvk]
      simp [hab]
      exact fun he => hab he.symm

/-- Witness for claim C7: at sources with `mainBranch` present only on the
CLI side, the key lands in a diff list. -/
theorem claim_C7_diff_partition_witness :
    ((sampleCli SyncKey.mainBranch).isSome = true ∨
      (sampleVs SyncKey.mainBranch).isSome = true) ∧
    (SyncKey.mainBranch ∈
        ((computeSettingsDiff sampleCli sampleVs).matching.map Prod.fst) ∨
     SyncKey.mainBranch ∈
        ((computeSettingsDiff sampleCli sampleVs).conflicts.map SettingConflict.key) ∨
     SyncKey.mainBranch ∈
        ((computeSettingsDiff sampleCli sampleVs).cliOnly.map Prod.fst) ∨
     SyncKey.mainBranch ∈
        ((computeSettingsDiff sampleCli sampleVs).vscodeOnly.map Prod.fst)) :=
  ⟨Or.inl (by decide),
    (claim_C7_diff_partition sampleCli sampleVs SyncKey.mainBranch).1 (Or.inl (by decide))⟩

/-- Claim C6: the sync flow's final patches are the union of the
conflict-resolution output and the caller-approved one-sided
propagations; a one-sided key is written to the opposite patch exactly
when approved (and its stored value truthy), and `resolveConflicts`
itself never writes a one-sided key. -/
theorem claim_C6_one_sided_approval (cliS vsS : SyncableSettings)
    (choices : ConflictChoices) (syncCliOnly syncVscodeOnly : List SyncKey)
    (k : SyncKey) :
    ((syncFlowPatches cliS vsS choices syncCliOnly syncVscodeOnly).cli k =
      if k ∈ syncVscodeOnly ∧ truthy (vsS k) = true then vsS k
      else (resolveConflicts (computeSettingsDiff cliS vsS) choices false).cli k) ∧
    ((syncFlowPatches cliS vsS choices syncCliOnly syncVscodeOnly).vscode
        (CLI_TO_VSCODE_MAP k) =
      if k ∈ syncCliOnly ∧ truthy (cliS k) = true then cliS k
      else (resolveConflicts (computeSettingsDiff cliS vsS) choices false).vscode
        (CLI_TO_VSCODE_MAP k)) ∧
    (∀ v, ((k, v) ∈ (computeSettingsDiff cliS vsS).cliOnly ∨
           (k, v) ∈ (computeSettingsDiff cliS vsS).vscodeOnly) →
      (resolveConflicts (computeSettingsDiff cliS vsS) choices false).cli k = none ∧
      (resolveConflicts (computeSettingsDiff cliS vsS) choices false).vscode
        (CLI_TO_VSCODE_MAP k) = none) := by
  refine ⟨?_, ?_, ?_⟩
  · show ((syncVscodeOnly.foldl (vscodeOnlyStep vsS)
        (syncCliOnly.foldl (cliOnlyStep cliS)
          (resolveConflicts (computeSettingsDiff cliS vsS) choices false))).cli k) = _
    rw [foldl_vscodeOnlyStep_cli, foldl_cliOnlyStep_cli]
  · show ((syncVscodeOnly.foldl (vscodeOnlyStep vsS)
        (syncCliOnly.foldl (cliOnlyStep cliS)
          (resolveConflicts (computeSettingsDiff cliS vsS) choices false))).vscode
        (CLI_TO_VSCODE_MAP k)) = _
    rw [foldl_vscodeOnlyStep_vscode, foldl_cliOnlyStep_vscode]
  · intro v hv
    have hnotc : ∀ c ∈ (computeSettingsDiff cliS vsS).conflicts, c.key ≠ k := by
      intro c hc he
      obtain ⟨hca, hcb, -, -⟩ := mem_conflicts_iff.mp hc
      rcases hv with hv | hv
      · obtain ⟨-, hb⟩ := mem_cliOnly_iff.mp hv
        rw [he, hb] at hcb
        cases hcb
      · obtain ⟨ha, -⟩ := mem_vscodeOnly_iff.mp hv
        rw [he, ha] at hca
        cases hca
    constructor
    · exact foldl_conflictStep_cli choices _ _ k hnotc
    · exact foldl_conflictStep_vscode choices _ _ (CLI_TO_VSCODE_MAP k)
        (fun c hc he => hnotc c hc (CLI_TO_VSCODE_MAP_inj.mp he))

/-- Witness for claim C6: an approved CLI-only `mainBranch` lands in the
VSCode patch, while `resolveConflicts` alone leaves it untouched. -/
theorem claim_C6_one_sided_approval_witness :
    (syncFlowPatches sampleCli sampleVs sampleChoices [SyncKey.mainBranch] []).vscode
        (CLI_TO_VSCODE_MAP SyncKey.mainBranch) = some "main" ∧
    (resolveConflicts (computeSettingsDiff sampleCli sampleVs) sampleChoices false).cli
        SyncKey.mainBranch = none := by
  have h := claim_C6_one_sided_approval sampleCli sampleVs sampleChoices
    [SyncKey.mainBranch] [] SyncKey.mainBranch
  constructor
  · rw [h.2.1]
    decide
  · exact (h.2.2 "main" (Or.inl (by decide))).1

theorem insertByScore_perm (x : List Char × Nat) :
    ∀ l : List (List Char × Nat), (insertByScore x l).Perm (x :: l)
  | [] => List.Perm.refl _
  | y :: ys => by
    unfold insertByScore
    by_cases h : x.2 ≥ y.2
    · rw [if_pos h]
    · rw [if_neg h]
      exact ((insertByScore_perm x ys).cons y).trans (List.Perm.swap x y ys)

theorem sortByScoreDesc_perm :
    ∀ l : List (List Char × Nat), (sortByScoreDesc l).Perm l
  | [] => List.Perm.refl _
  | x :: xs =>
    (insertByScore_perm x (sortByScoreDesc xs)).trans
      ((sortByScoreDesc_perm xs).cons x)

theorem filter_insertByScore (s : Nat) (x : List Char × Nat) :
    ∀ l : List (List Char × Nat),
    (insertByScore x l).filter (fun p => p.2 = s) =
      (x :: l).filter (fun p => p.2 = s)
  | [] => rfl
  | y :: ys => by
    unfold insertByScore
    by_cases h : x.2 ≥ y.2
    · rw [if_pos h]
    · rw [if_neg h]
      have hlt : x.2 < y.2 := Nat.lt_of_not_le h
      have ih := filter_insertByScore s x ys
      by_cases hy : y.2 = s
      · have hx : ¬(x.2 = s) := by omega
        simp [List.filter_cons, hy, hx, ih]
      · simp [List.filter_cons, hy, ih]

theorem filter_sortByScoreDesc (s : Nat) :
    ∀ l : List (List Char × Nat),
    (sortByScoreDesc l).filter (fun p => p.2 = s) = l.filter (fun p => p.2 = s)
  | [] => rfl
  | x :: xs => by
    unfold sortByScoreDesc
    rw [filter_insertByScore s x (sortByScoreDesc xs)]
    simp [List.filter_cons, filter_sortByScoreDesc s xs]

theorem mem_insertByScore {x y : List Char × Nat} :
    ∀ {l : List (List Char × Nat)}, y ∈ insertByScore x l → y = x ∨ y ∈ l := by
  intro l
  induction l with
  | nil =>
    intro h
    simpa [insertByScore] using h
  | cons z zs ih =>
    intro h
    unfold insertByScore at h
    by_cases hc : x.2 ≥ z.2
    · rw [if_pos hc] at h
      rcases List.mem_cons.mp h with rfl | h
      · exact Or.inl rfl
      · exact Or.inr h
    · rw [if_neg hc] at h
      rcases List.mem_cons.mp h with rfl | h
      · exact Or.inr (List.mem_cons_self _ _)
      · rcases ih h with rfl | h2
        · exact Or.inl rfl
        · exact Or.inr (List.mem_cons_of_mem _ h2)

theorem pairwise_insertByScore {x : List Char × Nat} :
    ∀ {l : List (List Char × Nat)},
    l.Pairwise (fun p q => q.2 ≤ p.2) →
    (insertByScore x l).Pairwise (fun p q => q.2 ≤ p.2) := by
  intro l
  induction l with
  | nil => intro _; simp [insertByScore]
  | cons y ys ih =>
    intro h
    obtain ⟨hy, hys⟩ := List.pairwise_cons.mp h
    unfold insertByScore
    by_cases hc : x.2 ≥ y.2
    · rw [if_pos hc]
      refine List.pairwise_cons.mpr ⟨?_, h⟩
      intro z hz
      rcases List.mem_cons.mp hz with rfl | hz
      · exact hc
      · exact Nat.le_trans (hy z hz) hc
    · rw [if_neg hc]
      refine List.pairwise_cons.mpr ⟨?_, ih hys⟩
      intro z hz
      rcases mem_insertByScore hz with rfl | hz
      · exact Nat.le_of_lt (Nat.lt_of_not_le hc)
      · exact hy z hz

theorem pairwise_sortByScoreDesc :
    ∀ l : List (List Char × Nat),
    (sortByScoreDesc l).Pairwise (fun p q => q.2 ≤ p.2)
  | [] => List.Pairwise.nil
  | _ :: xs => pairwise_insertByScore (pairwise_sortByScoreDesc xs)

/-- Claim C8: `rankBranchesByRelevance` is a stable descending sort by
score - the output is a permutation of the input, scores are descending
along the output, and for every score value the branches attaining it
appear in exactly their input order (so equal-score branches keep their
relative order). -/
theorem claim_C8_rank_stable (branches : List (List Char))
    (issueNumber : Option Nat) (issueTitle : List Char) :
    (rankBranchesByRelevance branches issueNumber issueTitle).Perm branches ∧
    (rankBranchesByRelevance branches issueNumber issueTitle).Pairwise
      (fun b1 b2 => scoreBranch b2 issueNumber (tokenizeTitle issueTitle) ≤
        scoreBranch b1 issueNumber (tokenizeTitle issueTitle)) ∧
    (∀ sc : Nat,
      (rankBranchesByRelevance branches issueNumber issueTitle).filter
        (fun b => scoreBranch b issueNumber (tokenizeTitle issueTitle) = sc) =
      branches.filter
        (fun b => scoreBranch b issueNumber (tokenizeTitle issueTitle) = sc)) := by
  set f := fun b => scoreBranch b issueNumber (tokenizeTitle issueTitle) with hf
  set scored := branches.map (fun b => (b, f b)) with hscored
  have hrank : rankBranchesByRelevance branches issueNumber issueTitle =
      (sortByScoreDesc scored).map Prod.fst := rfl
  have hmapfst : scored.map Prod.fst = branches := by
    rw [hscored, List.map_map]
    have h1 : List.map (Prod.fst ∘ fun b => (b, f b)) branches = List.map id branches :=
      List.map_congr_left fun a _ => rfl
    rw [h1, List.map_id]
  have hinv_scored : ∀ p ∈ scored, p.2 = f p.1 := by
    intro p hp
    obtain ⟨b, -, rfl⟩ := List.mem_map.mp hp
    rfl
  have hinv : ∀ p ∈ sortByScoreDesc scored, p.2 = f p.1 := fun p hp =>
    hinv_scored p ((sortByScoreDesc_perm scored).subset hp)
  refine ⟨?_, ?_, ?_⟩
  · rw [hrank]
    exact hmapfst ▸ ((sortByScoreDesc_perm scored).map Prod.fst)
  · rw [hrank, List.pairwise_map]
    refine (pairwise_sortByScoreDesc scored).imp_of_mem ?_
    intro p q hp hq hr
    show f q.1 ≤ f p.1
    rw [← hinv p hp, ← hinv q hq]
    exact hr
  · intro sc
    rw [hrank]
    calc ((sortByScoreDesc scored).map Prod.fst).filter (fun b => f b = sc)
        = ((sortByScoreDesc scored).filter
            ((fun b => decide (f b = sc)) ∘ Prod.fst)).map Prod.fst := by
          rw [List.filter_map]
      _ = ((sortByScoreDesc scored).filter (fun p => p.2 = sc)).map Prod.fst := by
          rw [List.filter_congr]
          intro p hp
          simp [hinv p hp]
      _ = (scored.filter (fun p => p.2 = sc)).map Prod.fst := by
          rw [filter_sortByScoreDesc]
      _ = (scored.filter ((fun b => decide (f b = sc)) ∘ Prod.fst)).map Prod.fst := by
          rw [List.filter_congr]
          intro p hp
          simp [hinv_scored p hp]
      _ = (scored.map Prod.fst).filter (fun b => f b = sc) := by
          conv_rhs => rw [List.filter_map]
      _ = branches.filter (fun b => f b = sc) := by rw [hmapfst]

theorem linksUnique_applyLinkOp {links : List BranchIssueLink}
    (h : LinksUnique links) (op : LinkOp) : LinksUnique (applyLinkOp links op) := by
  cases op with
  | link bn num title pid stamp =>
    unfold applyLinkOp LinksUnique
    rw [List.pairwise_append]
    refine ⟨h.filter _, List.pairwise_singleton _ _, ?_⟩
    intro l hl l2 hl2
    obtain ⟨-, hcond⟩ := List.mem_filter.mp hl
    simp only [decide_eq_true_eq, Bool.and_eq_true] at hcond
    have hl2e : l2 = ⟨bn, num, title, pid, stamp⟩ := by simpa using hl2
    subst hl2e
    refine ⟨?_, ?_⟩
    · simpa using hcond.2
    · simpa using hcond.1
  | unlinkByIssue pid =>
    exact h.filter _
  | unlinkByBranch bn =>
    exact h.filter _

theorem linksUnique_foldl :
    ∀ (ops : List LinkOp) (links : List BranchIssueLink),
    LinksUnique links → LinksUnique (ops.foldl applyLinkOp links)
  | [], _, h => h
  | op :: rest, links, h =>
    linksUnique_foldl rest (applyLinkOp links op) (linksUnique_applyLinkOp h op)

/-- Claim C10: starting from the empty store, any sequence of
`linkBranch`, `unlinkByIssue` and `unlinkByBranch` operations leaves a
store in which no two links share a branch name and no two links share a
project item id. -/
theorem claim_C10_links_unique (ops : List LinkOp) :
    (runLinkOps ops).Pairwise (fun l1 l2 =>
      l1.branchName ≠ l2.branchName ∧ l1.projectItemId ≠ l2.projectItemId) :=
  linksUnique_foldl ops [] List.Pairwise.nil

end GhProjects
